import Mathlib

/-!
Verification of the biomass cycle-detection core of `5 TimeSeries_NDVI.py`
(the Outlier Filter, Smoother and Cycle Sequencer stages of the pipeline),
shallowly embedded over `List`: dates are `Nat`, values are `ℚ`.
-/

namespace Jobs

/-- One observation of the series: `(date, value)`. -/
abbrev Obs := Nat × ℚ

/-- Embedding of the per-row deviation computed by
`df['Diff_NDVI'] = df['Media_NDVI'].diff().abs()` and
`df['Percent_Desvio'] = (df['Diff_NDVI'] / df['Media_NDVI'].shift(1)) * 100`:
`none` models pandas `NaN`/`inf` (row 0 has no predecessor; a zero predecessor
yields `NaN` or `inf`), which compare false against any threshold. -/
def percentDesvio (vs : List ℚ) (i : Nat) : Option ℚ :=
  if i = 0 then none
  else
    match vs[i-1]?, vs[i]? with
    | some prev, some cur => if prev = 0 then none else some (|cur - prev| / prev * 100)
    | _, _ => none

/-- Row `i` survives the boolean mask `df['Percent_Desvio'] <= T`
(`NaN <= T` is false in pandas, so a `none` deviation is dropped). -/
def retained (vs : List ℚ) (T : ℚ) (i : Nat) : Bool :=
  match percentDesvio vs i with
  | none => false
  | some q => decide (q ≤ T)

/-- Embedding of `df_filtrado = df[df['Percent_Desvio'] <= 100]` (the deviation
columns are dropped again afterwards), parametrised by the threshold `T`;
the source fixes `T = 100`. -/
def filterSeries (T : ℚ) (obs : List Obs) : List Obs :=
  (obs.enum.filter (fun p => retained (obs.map Prod.snd) T p.1)).map Prod.snd

/-- Ordering of observations by date, as used by `sort_values('Data')`. -/
def dateLE (a b : Obs) : Prop := a.1 ≤ b.1

instance : DecidableRel dateLE := fun a b => Nat.decLe a.1 b.1

instance : IsTotal Obs dateLE := ⟨fun a b => Nat.le_total a.1 b.1⟩

instance : IsTrans Obs dateLE := ⟨fun _ _ _ => Nat.le_trans⟩

/-- Embedding of `pd.DataFrame(dados, ...).sort_values('Data')`: the raw
`(date, value)` pairs are sorted ascending by date. -/
def sortByDate (obs : List Obs) : List Obs := List.insertionSort dateLE obs

/-- Embedding of `rolling(window=W, center=True).mean()` on a column of length
`n`: entry `i` is the mean of the `W` values in the window ending `(W-1)/2`
after `i` (for odd `W`: centered at `i`), and `none` (pandas `NaN`) where the
window does not fit. -/
def rollingMean (W : Nat) (xs : List ℚ) : List (Option ℚ) :=
  (List.range xs.length).map fun i =>
    if W / 2 ≤ i ∧ i + (W - 1) / 2 < xs.length then
      some (((xs.drop (i - W / 2)).take W).sum / (W : ℚ))
    else none

/-- The error exits of `main` before plotting: the empty-input check
(`if not dados`) and the empty-after-filter check (`if df_filtrado.empty`). -/
inductive CoreError
  | emptyInput
  | emptyAfterFilter
deriving DecidableEq, Repr

/-- The tabular outputs of the core: the sorted full series, the filtered
series, and the smoothed column aligned with the filtered series. -/
structure CoreOutput where
  fullTable : List Obs
  filtered : List Obs
  smoothed : List (Option ℚ)
deriving DecidableEq, Repr

/-- The data path of `main` from the raw `dados` list to the filtered and
smoothed tables: empty-input check, `sort_values('Data')`, the deviation
filter at threshold 100, the empty-after-filter check, and the centered
rolling mean with `janela_suavizacao = 9`. -/
def runCore (obs : List Obs) : Except CoreError CoreOutput :=
  if obs = [] then .error .emptyInput
  else
    let df := sortByDate obs
    let filtered := filterSeries 100 df
    if filtered = [] then .error .emptyAfterFilter
    else .ok ⟨df, filtered, rollingMean 9 (filtered.map Prod.snd)⟩

/-- The two event labels appended to `tendencias_filtradas`. -/
inductive Label
  | corte
  | crescimento_ou_corte
deriving DecidableEq, Repr

/-- The two values of the `sequencia` state variable. -/
inductive Sequencia
  | crescimento
  | pico
deriving DecidableEq, Repr

/-- One emitted cycle event: `(label, index into the filtered series)`. -/
abbrev Ev := Label × Nat

/-- Embedding of the `while i < len(picos) and j < len(vales)` loop of the
cycle sequencer. `fuel` bounds the number of iterations (each iteration
advances `i` or `j`, so `picos.length + vales.length` always suffices);
`none` models either fuel exhaustion or the `IndexError` that
`tendencias_filtradas[-1]` would raise on an empty list. -/
def loopF (picos vales : List Nat) :
    Nat → Nat → Nat → Sequencia → List Ev → Option (List Ev × Nat × Nat × Sequencia)
  | 0, i, j, seq, acc =>
    if i < picos.length ∧ j < vales.length then none else some (acc, i, j, seq)
  | fuel + 1, i, j, seq, acc =>
    if h : i < picos.length ∧ j < vales.length then
      match seq with
      | .crescimento =>
        if picos.get ⟨i, h.1⟩ < vales.get ⟨j, h.2⟩ then
          loopF picos vales fuel (i+1) j .pico (acc ++ [(.corte, picos.get ⟨i, h.1⟩)])
        else
          loopF picos vales fuel (i+1) j .crescimento acc
      | .pico =>
        match acc.getLast? with
        | none => none
        | some last =>
          if last.2 < vales.get ⟨j, h.2⟩ then
            loopF picos vales fuel i (j+1) .crescimento
              (acc ++ [(.crescimento_ou_corte, vales.get ⟨j, h.2⟩)])
          else
            loopF picos vales fuel i (j+1) .pico acc
    else some (acc, i, j, seq)

/-- Embedding of the cycle sequencer: the main loop from the initial state
(`sequencia = "crescimento"`, `i = j = 0`, empty event list) followed by the
two post-loop flush appends
(`if i < len(picos) and sequencia == "crescimento"` and
`if j < len(vales) and sequencia == "pico"`). -/
def sequencer (picos vales : List Nat) : Option (List Ev) :=
  match loopF picos vales (picos.length + vales.length) 0 0 .crescimento [] with
  | none => none
  | some (acc, i, j, seq) =>
    let acc1 :=
      match seq, picos[i]? with
      | .crescimento, some pk => acc ++ [(Label.corte, pk)]
      | _, _ => acc
    let acc2 :=
      match seq, vales[j]? with
      | .pico, some vl => acc1 ++ [(Label.crescimento_ou_corte, vl)]
      | _, _ => acc1
    some acc2

/-! ## Basic lemmas about the sequencer loop -/

/-- When the `while` guard is already false, the loop returns its arguments
unchanged, whatever the fuel. -/
lemma loopF_exit (picos vales : List Nat) (fuel i j : Nat) (seq : Sequencia)
    (acc : List Ev) (h : ¬(i < picos.length ∧ j < vales.length)) :
    loopF picos vales fuel i j seq acc = some (acc, i, j, seq) := by
  cases fuel <;> simp [loopF, h]

/-! ## Invariants of the sequencer -/

/-- The label that strict alternation starting with `corte` demands at
position `k` of the event list. -/
def parityLabel (k : Nat) : Label :=
  if k % 2 = 0 then Label.corte else Label.crescimento_ou_corte

/-- Alternation: the event at position `k` carries `parityLabel k`. -/
def AltInv (acc : List Ev) : Prop :=
  ∀ k e, acc[k]? = some e → e.1 = parityLabel k

/-- Every `crescimento_ou_corte` event strictly exceeds, in series index, the
event emitted just before it. -/
def StepInv (acc : List Ev) : Prop :=
  ∀ k e f, acc[k]? = some e → acc[k+1]? = some f →
    f.1 = Label.crescimento_ou_corte → e.2 < f.2

/-- The state variable mirrors the parity of the number of emitted events:
`pico` exactly when an odd number of events has been emitted. -/
def FaseInv (seq : Sequencia) (acc : List Ev) : Prop :=
  seq = Sequencia.pico ↔ acc.length % 2 = 1

/-- Whenever the loop could exit in state `pico` with the peak cursor
exhausted and a valley pending, the pending valley strictly exceeds the last
emitted event (so the flush append keeps `StepInv`). -/
def PreFlush (picos vales : List Nat) (i j : Nat) (seq : Sequencia)
    (acc : List Ev) : Prop :=
  seq = Sequencia.pico → picos.length ≤ i → ∀ v, vales[j]? = some v →
    ∃ e, acc.getLast? = some e ∧ e.2 < v

lemma getElem?_append_sing (l : List Ev) (e : Ev) (k : Nat) :
    (l ++ [e])[k]? = if k < l.length then l[k]? else if k = l.length then some e else none := by
  rcases Nat.lt_or_ge k l.length with h | h
  · rw [List.getElem?_append_left h, if_pos h]
  · rw [if_neg (by omega), List.getElem?_append]
    rw [if_neg (by omega)]
    rcases Nat.lt_or_ge k (l.length + 1) with h2 | h2
    · have : k = l.length := by omega
      subst this
      simp
    · rw [if_neg (by omega)]
      rw [List.getElem?_eq_none]
      simp
      omega

lemma AltInv_append (acc : List Ev) (e : Ev) (hA : AltInv acc)
    (he : e.1 = parityLabel acc.length) : AltInv (acc ++ [e]) := by
  intro k x hx
  rw [getElem?_append_sing] at hx
  split at hx
  · exact hA k x hx
  · split at hx
    · cases hx
      next h1 h2 => rw [h2]; exact he
    · cases hx

lemma StepInv_append (acc : List Ev) (e : Ev) (hS : StepInv acc)
    (he : e.1 = Label.crescimento_ou_corte →
      ∃ last, acc.getLast? = some last ∧ last.2 < e.2) :
    StepInv (acc ++ [e]) := by
  intro k x y hx hy hlab
  rw [getElem?_append_sing] at hx hy
  split at hy
  · next hk1 =>
    rw [if_pos (by omega)] at hx
    exact hS k x y hx hy hlab
  · split at hy
    · next hk0 hk1 =>
      cases hy
      obtain ⟨last, hl, hlt⟩ := he hlab
      rw [List.getLast?_eq_getElem?] at hl
      rw [if_pos (by omega)] at hx
      have : acc.length - 1 = k := by omega
      rw [this] at hl
      rw [hx] at hl
      cases hl
      exact hlt
    · cases hy

/-- Master invariant lemma for the sequencer loop: with enough fuel the loop
always returns, and it preserves alternation (`AltInv`), the monotonicity of
`crescimento_ou_corte` events (`StepInv`), the state/parity correspondence
(`FaseInv`) and the flush precondition (`PreFlush`); at exit the `while`
guard is false. -/
lemma loopF_spec (picos vales : List Nat) :
    ∀ fuel i j seq acc,
      picos.length - i + (vales.length - j) ≤ fuel →
      AltInv acc → StepInv acc → FaseInv seq acc →
      PreFlush picos vales i j seq acc →
      ∃ acc2 i2 j2 seq2,
        loopF picos vales fuel i j seq acc = some (acc2, i2, j2, seq2) ∧
        AltInv acc2 ∧ StepInv acc2 ∧ FaseInv seq2 acc2 ∧
        PreFlush picos vales i2 j2 seq2 acc2 ∧
        ¬(i2 < picos.length ∧ j2 < vales.length) := by
  intro fuel
  induction fuel with
  | zero =>
    intro i j seq acc hfuel hA hS hF hP
    have hcond : ¬(i < picos.length ∧ j < vales.length) := by omega
    exact ⟨acc, i, j, seq, by simp [loopF, hcond], hA, hS, hF, hP, hcond⟩
  | succ fuel ih =>
    intro i j seq acc hfuel hA hS hF hP
    by_cases hcond : i < picos.length ∧ j < vales.length
    · obtain ⟨hi1, hj1⟩ := hcond
      cases seq with
      | crescimento =>
        have hlen : acc.length % 2 = 0 := by
          have hf := hF
          simp only [FaseInv] at hf
          simp at hf
          omega
        by_cases hpv : picos[i] < vales[j]
        · have hstep : loopF picos vales (fuel+1) i j .crescimento acc =
              loopF picos vales fuel (i+1) j .pico
                (acc ++ [(.corte, picos[i])]) := by
            simp [loopF, hi1, hj1, hpv]
          rw [hstep]
          apply ih
          · omega
          · exact AltInv_append _ _ hA (by simp [parityLabel, hlen])
          · refine StepInv_append _ _ hS ?_
            intro hc
            simp at hc
          · simp [FaseInv, List.length_append]
            omega
          · intro _ _ v hv
            rw [List.getElem?_eq_getElem hj1] at hv
            refine ⟨(.corte, picos[i]), List.getLast?_concat _, ?_⟩
            cases hv
            exact hpv
        · have hstep : loopF picos vales (fuel+1) i j .crescimento acc =
              loopF picos vales fuel (i+1) j .crescimento acc := by
            simp [loopF, hi1, hj1, hpv]
          rw [hstep]
          apply ih
          · omega
          · exact hA
          · exact hS
          · exact hF
          · intro hseq
            simp at hseq
      | pico =>
        have hlen : acc.length % 2 = 1 := hF.mp rfl
        have hne : acc ≠ [] := by
          intro h
          rw [h] at hlen
          simp at hlen
        obtain ⟨last, hlast⟩ : ∃ last, acc.getLast? = some last := by
          cases hacc : acc.getLast? with
          | none => exact absurd (List.getLast?_eq_none_iff.mp hacc) hne
          | some l => exact ⟨l, rfl⟩
        by_cases hlv : last.2 < vales[j]
        · have hstep : loopF picos vales (fuel+1) i j .pico acc =
              loopF picos vales fuel i (j+1) .crescimento
                (acc ++ [(.crescimento_ou_corte, vales[j])]) := by
            simp [loopF, hi1, hj1, hlast, hlv]
          rw [hstep]
          apply ih
          · omega
          · exact AltInv_append _ _ hA (by simp [parityLabel, hlen])
          · exact StepInv_append _ _ hS (fun _ => ⟨last, hlast, hlv⟩)
          · simp [FaseInv, List.length_append]
            omega
          · intro hseq
            simp at hseq
        · have hstep : loopF picos vales (fuel+1) i j .pico acc =
              loopF picos vales fuel i (j+1) .pico acc := by
            simp [loopF, hi1, hj1, hlast, hlv]
          rw [hstep]
          apply ih
          · omega
          · exact hA
          · exact hS
          · exact hF
          · intro _ hip _
            exact absurd hi1 (by omega)
    · exact ⟨acc, i, j, seq, by simp [loopF, hcond], hA, hS, hF, hP, hcond⟩

/-- The sequencer always returns `some` list, and the full output — flush
events included — satisfies alternation and `crescimento_ou_corte`
monotonicity. -/
lemma sequencer_spec (picos vales : List Nat) :
    ∃ l, sequencer picos vales = some l ∧ AltInv l ∧ StepInv l := by
  obtain ⟨acc2, i2, j2, seq2, hrun, hA, hS, hF, hP, hstop⟩ :=
    loopF_spec picos vales (picos.length + vales.length) 0 0 .crescimento []
      (by omega)
      (by intro k e h; simp at h)
      (by intro k e f h; simp at h)
      (by simp [FaseInv])
      (by intro h; simp at h)
  cases seq2 with
  | crescimento =>
    have hlen : acc2.length % 2 = 0 := by
      have hf := hF
      simp only [FaseInv] at hf
      simp at hf
      omega
    cases hpk : picos[i2]? with
    | none =>
      refine ⟨acc2, ?_, hA, hS⟩
      simp [sequencer, hrun, hpk]
    | some pk =>
      refine ⟨acc2 ++ [(Label.corte, pk)], ?_, ?_, ?_⟩
      · simp [sequencer, hrun, hpk]
      · exact AltInv_append _ _ hA (by simp [parityLabel, hlen])
      · refine StepInv_append _ _ hS ?_
        intro hc
        simp at hc
  | pico =>
    have hlen : acc2.length % 2 = 1 := hF.mp rfl
    cases hvl : vales[j2]? with
    | none =>
      refine ⟨acc2, ?_, hA, hS⟩
      simp [sequencer, hrun, hvl]
    | some vl =>
      have hj2 : j2 < vales.length := by
        by_contra hcon
        rw [List.getElem?_eq_none (by omega)] at hvl
        cases hvl
      have hi2 : picos.length ≤ i2 := by
        by_contra hcon
        exact hstop ⟨by omega, hj2⟩
      obtain ⟨e, hlast, hlt⟩ := hP rfl hi2 vl hvl
      refine ⟨acc2 ++ [(Label.crescimento_ou_corte, vl)], ?_, ?_, ?_⟩
      · simp [sequencer, hrun, hvl]
      · exact AltInv_append _ _ hA (by simp [parityLabel, hlen])
      · exact StepInv_append _ _ hS (fun _ => ⟨e, hlast, hlt⟩)

/-! ## Universal claim theorems about the sequencer -/

/-- C3: for every pair of peak/valley index inputs, the emitted event list
strictly alternates labels beginning with `corte` (`Cut`): the event at
position `k` is `corte` for even `k` and `crescimento_ou_corte` for odd `k`,
flush events included. -/
theorem seq_alternation (picos vales : List Nat) (l : List Ev)
    (h : sequencer picos vales = some l) :
    ∀ k e, l[k]? = some e →
      e.1 = if k % 2 = 0 then Label.corte else Label.crescimento_ou_corte := by
  obtain ⟨l2, h2, hA, _⟩ := sequencer_spec picos vales
  rw [h] at h2
  cases h2
  intro k e he
  simpa [parityLabel] using hA k e he

theorem seq_alternation_witness :
    sequencer [5, 15] [10, 20] =
      some [(Label.corte, 5), (Label.crescimento_ou_corte, 10),
            (Label.corte, 15), (Label.crescimento_ou_corte, 20)] ∧
    (Label.crescimento_ou_corte, 10).1 =
      (if 1 % 2 = 0 then Label.corte else Label.crescimento_ou_corte) :=
  ⟨by decide,
   seq_alternation [5, 15] [10, 20]
     [(Label.corte, 5), (Label.crescimento_ou_corte, 10),
      (Label.corte, 15), (Label.crescimento_ou_corte, 20)]
     (by decide) 1 (Label.crescimento_ou_corte, 10) (by decide)⟩

/-- C5 (amended): every `crescimento_ou_corte` event strictly exceeds, in
series index, the event emitted immediately before it — but the full event
list need not be in temporal order (`corte` events may jump backwards, see
the counterexample). -/
theorem seq_growthorcut_increasing (picos vales : List Nat) (l : List Ev)
    (h : sequencer picos vales = some l) :
    ∀ k e f, l[k]? = some e → l[k+1]? = some f →
      f.1 = Label.crescimento_ou_corte → e.2 < f.2 := by
  obtain ⟨l2, h2, _, hS⟩ := sequencer_spec picos vales
  rw [h] at h2
  cases h2
  exact hS

theorem seq_growthorcut_increasing_witness :
    sequencer [5, 15] [10, 20] =
      some [(Label.corte, 5), (Label.crescimento_ou_corte, 10),
            (Label.corte, 15), (Label.crescimento_ou_corte, 20)] ∧
    (5 : Nat) < 10 :=
  ⟨by decide,
   seq_growthorcut_increasing [5, 15] [10, 20]
     [(Label.corte, 5), (Label.crescimento_ou_corte, 10),
      (Label.corte, 15), (Label.crescimento_ou_corte, 20)]
     (by decide) 0 (Label.corte, 5) (Label.crescimento_ou_corte, 10)
     (by decide) (by decide) (by decide)⟩

/-- C9: the sequencer never crashes: the embedding returns `none` exactly
when `tendencias_filtradas[-1]` would be read from an empty list (the state
machine being in `pico` with no event emitted yet), and the result is always
`some` — in state `pico` at least one event has always been emitted. -/
theorem seq_pico_safe (picos vales : List Nat) :
    (sequencer picos vales).isSome = true := by
  obtain ⟨l, h, _, _⟩ := sequencer_spec picos vales
  rw [h]
  rfl

/-! ## Claim theorems about the outlier filter -/

/-- Unfolding of a successful mask test: a retained row has a positive
index, a nonzero original predecessor, and deviation at most `T`. -/
lemma retained_spec (vs : List ℚ) (T : ℚ) (i : Nat)
    (h : retained vs T i = true) :
    0 < i ∧ ∃ prev cur, vs[i-1]? = some prev ∧ vs[i]? = some cur ∧
      prev ≠ 0 ∧ |cur - prev| / prev * 100 ≤ T := by
  unfold retained percentDesvio at h
  by_cases h0 : i = 0
  · rw [if_pos h0] at h
    cases h
  · rw [if_neg h0] at h
    refine ⟨by omega, ?_⟩
    cases hp : vs[i-1]? with
    | none =>
      rw [hp] at h
      cases hc : vs[i]? <;> rw [hc] at h <;> cases h
    | some prev =>
      rw [hp] at h
      cases hc : vs[i]? with
      | none =>
        rw [hc] at h
        cases h
      | some cur =>
        rw [hc] at h
        by_cases hprev : prev = 0
        · simp [hprev] at h
        · simp [hprev] at h
          exact ⟨prev, cur, rfl, rfl, hprev, h⟩

/-- C2: the Outlier Filter's output is a subsequence of its input (order
preserved), and every retained observation — in particular every one other
than the first — sits at an original position `i > 0` whose absolute
percent deviation against the *original* (unfiltered) predecessor value is
at most the threshold `T`. -/
theorem filter_invariant (T : ℚ) (obs : List Obs) :
    List.Sublist (filterSeries T obs) obs ∧
    ∀ x, x ∈ filterSeries T obs →
      ∃ i prev, 0 < i ∧ obs[i]? = some x ∧
        (obs.map Prod.snd)[i-1]? = some prev ∧ prev ≠ 0 ∧
        |x.2 - prev| / prev * 100 ≤ T := by
  constructor
  · have h1 : (obs.enum.filter
        (fun p => retained (obs.map Prod.snd) T p.1)).Sublist obs.enum :=
      List.filter_sublist _
    have h2 := h1.map Prod.snd
    rw [List.enum_map_snd] at h2
    exact h2
  · intro x hx
    simp only [filterSeries, List.mem_map] at hx
    obtain ⟨⟨i, y⟩, hmem, hxy⟩ := hx
    rw [List.mem_filter] at hmem
    obtain ⟨henum, hret⟩ := hmem
    have hget : obs[i]? = some y := List.mk_mem_enum_iff_getElem?.mp henum
    obtain ⟨hipos, prev, cur, hprev, hcur, hne, hdev⟩ :=
      retained_spec (obs.map Prod.snd) T i hret
    have hcur2 : cur = y.2 := by
      rw [List.getElem?_map, hget] at hcur
      simpa using hcur.symm
    cases hxy
    refine ⟨i, prev, hipos, hget, hprev, hne, ?_⟩
    rw [← hcur2]
    exact hdev

unseal Rat.add Rat.sub Rat.mul Rat.inv in
theorem filter_invariant_witness :
    ((1:Nat), (12:ℚ)) ∈ filterSeries 100 [((0:Nat), (10:ℚ)), (1, 12)] ∧
    ∃ i prev, 0 < i ∧
      ([((0:Nat), (10:ℚ)), (1, 12)])[i]? = some ((1:Nat), (12:ℚ)) ∧
      (([((0:Nat), (10:ℚ)), (1, 12)]).map Prod.snd)[i-1]? = some prev ∧
      prev ≠ 0 ∧ |((1:Nat), (12:ℚ)).2 - prev| / prev * 100 ≤ 100 :=
  ⟨by decide,
   (filter_invariant 100 [((0:Nat), (10:ℚ)), (1, 12)]).2
     ((1:Nat), (12:ℚ)) (by decide)⟩

/-! ## Claim theorems about the smoother -/

/-- The `W`-element slice of `xs` starting at `a`, written as the spec words
the window: the values at indices `a`, `a+1`, …, `a+W-1`. -/
lemma take_drop_window (xs : List ℚ) (a W : Nat) (h : a + W ≤ xs.length) :
    (xs.drop a).take W = (List.range W).map (fun k => xs.getD (a + k) 0) := by
  apply List.ext_getElem
  · simp
    omega
  · intro n h1 h2
    simp only [List.getElem_take, List.getElem_drop, List.getElem_map,
      List.getElem_range]
    rw [List.getD_eq_getElem?_getD]
    have hn : n < W := by
      simpa using h2
    rw [List.getElem?_eq_getElem (by omega)]
    simp

/-- C6: for every input series and odd window width `W`, the smoothed column
has the same length as its input; an entry is "undefined" (`none`) exactly
when it is among the first `(W-1)/2` or last `(W-1)/2` positions; and every
other entry `i` is the mean of the `W` input values at indices
`i-(W-1)/2 … i+(W-1)/2`. -/
theorem smoother_shape (W : Nat) (hW : Odd W) (xs : List ℚ) :
    (rollingMean W xs).length = xs.length ∧
    (∀ i, i < xs.length →
      ((rollingMean W xs)[i]? = some none ↔
        (i < (W - 1) / 2 ∨ xs.length ≤ i + (W - 1) / 2))) ∧
    (∀ i, (W - 1) / 2 ≤ i → i + (W - 1) / 2 < xs.length →
      (rollingMean W xs)[i]? =
        some (some
          (((List.range W).map (fun k => xs.getD (i - (W - 1) / 2 + k) 0)).sum
            / (W : ℚ)))) := by
  obtain ⟨m, hm⟩ := hW
  have hhalf : W / 2 = (W - 1) / 2 := by omega
  refine ⟨by simp [rollingMean], ?_, ?_⟩
  · intro i hi
    simp only [rollingMean, List.getElem?_map, List.getElem?_range hi,
      Option.map_some']
    by_cases hC : W / 2 ≤ i ∧ i + (W - 1) / 2 < xs.length
    · rw [if_pos hC]
      simp only [Option.some.injEq]
      constructor
      · intro hfalse
        cases hfalse
      · intro hor
        exact absurd hor (by omega)
    · rw [if_neg hC]
      simp only [Option.some.injEq, true_iff, iff_true]
      omega
  · intro i h1 h2
    have hi : i < xs.length := by omega
    simp only [rollingMean, List.getElem?_map, List.getElem?_range hi,
      Option.map_some']
    rw [if_pos (by omega)]
    rw [take_drop_window xs (i - W / 2) W (by omega)]
    rw [hhalf]

theorem smoother_shape_witness :
    Odd 9 ∧
    (rollingMean 9 [1, 2, 3, 4, 5, 6, 7, 8, 9, 10, 11, 12, 13])[6]? =
      some (some 7) := by
  refine ⟨⟨4, by norm_num⟩, ?_⟩
  have h := (smoother_shape 9 ⟨4, by norm_num⟩
    [1, 2, 3, 4, 5, 6, 7, 8, 9, 10, 11, 12, 13]).2.2 6 (by norm_num) (by norm_num)
  rw [h]
  norm_num [List.range_succ]

/-! ## Claim theorems about input ordering -/

/-- C7 (amended): the core never rejects unsorted (or duplicate-date) input:
it silently re-sorts by date — the full table is the input permuted into
ascending date order — and proceeds; besides the empty-input exit its only
failure mode is the empty-after-filter exit. -/
theorem core_resorts (obs : List Obs) (h : obs ≠ []) :
    (sortByDate obs).Perm obs ∧
    List.Sorted dateLE (sortByDate obs) ∧
    (runCore obs = .error CoreError.emptyAfterFilter ∨
      runCore obs = .ok ⟨sortByDate obs, filterSeries 100 (sortByDate obs),
        rollingMean 9 ((filterSeries 100 (sortByDate obs)).map Prod.snd)⟩) := by
  refine ⟨List.perm_insertionSort dateLE obs,
    List.sorted_insertionSort dateLE obs, ?_⟩
  unfold runCore
  rw [if_neg h]
  by_cases hf : filterSeries 100 (sortByDate obs) = []
  · left
    simp only [sortByDate] at hf
    simp [sortByDate, hf]
  · right
    simp only [sortByDate] at hf
    simp [sortByDate, hf]

theorem core_resorts_witness :
    ([((2:Nat), (10:ℚ)), (1, 12)] ≠ ([] : List Obs)) ∧
    ((sortByDate [((2:Nat), (10:ℚ)), (1, 12)]).Perm
        [((2:Nat), (10:ℚ)), (1, 12)] ∧
      List.Sorted dateLE (sortByDate [((2:Nat), (10:ℚ)), (1, 12)]) ∧
      (runCore [((2:Nat), (10:ℚ)), (1, 12)] = .error CoreError.emptyAfterFilter ∨
        runCore [((2:Nat), (10:ℚ)), (1, 12)] =
          .ok ⟨sortByDate [((2:Nat), (10:ℚ)), (1, 12)],
            filterSeries 100 (sortByDate [((2:Nat), (10:ℚ)), (1, 12)]),
            rollingMean 9
              ((filterSeries 100
                (sortByDate [((2:Nat), (10:ℚ)), (1, 12)])).map Prod.snd)⟩)) :=
  ⟨by decide, core_resorts [((2:Nat), (10:ℚ)), (1, 12)] (by decide)⟩

/-! ## Claim theorems on concrete inputs -/

instance : DecidableEq (Except CoreError CoreOutput) := fun a b =>
  match a, b with
  | .error x, .error y => decidable_of_iff (x = y) (by simp)
  | .ok x, .ok y => decidable_of_iff (x = y) (by simp)
  | .error _, .ok _ => isFalse (by simp)
  | .ok _, .error _ => isFalse (by simp)

/-- C8: a run on an input series with zero observations fails with the
empty-series error and produces no filtered output. -/
theorem empty_series_error : runCore [] = .error CoreError.emptyInput := by
  decide

unseal Rat.add Rat.sub Rat.mul Rat.inv in
/-- C1 (code evaluation at the failing input): on the series `[10, 25]` with
threshold 100, the filter drops *both* observations — position 0 is dropped
because its `NaN` deviation fails the `<= 100` mask — so the filtered series
is empty and the run aborts, instead of returning the length-1 series `[10]`
claimed by the spec. -/
theorem filter_drops_first :
    filterSeries 100 [((0:Nat), (10:ℚ)), (1, 25)] = [] ∧
    runCore [((0:Nat), (10:ℚ)), (1, 25)] = .error CoreError.emptyAfterFilter := by
  decide

/-- C4: with peaks `[5, 15]` and valleys `[10, 20]` the sequencer emits
exactly `[(Cut,5), (GrowthOrCut,10), (Cut,15), (GrowthOrCut,20)]`; the loop
itself stops after three events with the peak cursor exhausted (`i = 2`) in
state `pico`, so the final `(GrowthOrCut, 20)` comes from the flush rule. -/
theorem seq_scenario :
    sequencer [5, 15] [10, 20] =
      some [(Label.corte, 5), (Label.crescimento_ou_corte, 10),
            (Label.corte, 15), (Label.crescimento_ou_corte, 20)] ∧
    loopF [5, 15] [10, 20] 4 0 0 .crescimento [] =
      some ([(Label.corte, 5), (Label.crescimento_ou_corte, 10), (Label.corte, 15)],
            2, 1, Sequencia.pico) := by
  decide

/-- C5 (counterexample): for the strictly increasing inputs peaks `[1, 2]`
and valleys `[10, 20]`, the emitted event indices are `[1, 10, 2, 20]`,
which is not strictly increasing — the sequencer output is not guaranteed
to be in temporal order. -/
theorem seq_not_temporal :
    List.Pairwise (fun a b => a < b) [1, 2] ∧
    List.Pairwise (fun a b => a < b) [10, 20] ∧
    sequencer [1, 2] [10, 20] =
      some [(Label.corte, 1), (Label.crescimento_ou_corte, 10),
            (Label.corte, 2), (Label.crescimento_ou_corte, 20)] ∧
    ¬ List.Pairwise (fun a b => a < b)
        (((sequencer [1, 2] [10, 20]).getD []).map Prod.snd) := by
  decide

unseal Rat.add Rat.sub Rat.mul Rat.inv in
/-- C7 (counterexample): on an input that is not sorted ascending by date,
the core does not fail — it silently re-sorts the input by date
(`sort_values('Data')`) and completes normally. -/
theorem sorts_instead_of_failing :
    ¬ List.Sorted dateLE [((2:Nat), (10:ℚ)), (1, 12)] ∧
    runCore [((2:Nat), (10:ℚ)), (1, 12)] =
      .ok ⟨[(1, 12), (2, 10)], [(2, 10)], [none]⟩ := by
  decide

/-- C10: when the peaks sequence is empty the sequencer emits no events at
all, however many valleys are supplied: the loop guard fails immediately and
neither flush branch can fire from the initial `crescimento` state. -/
theorem seq_no_peaks_empty (vales : List Nat) : sequencer [] vales = some [] := by
  unfold sequencer
  rw [loopF_exit]
  · rfl
  · simp

end Jobs
